import Mathlib

/-!
# MC4 flour-mill production planner — verification of spec claims

Shallow embedding of the scheduling core of `backend/data_generator.py`:
the recipe-mix allocator (`compute_dynamic_recipe_mix`), the recipe-demand
computation (`generate_recipe_demand`), the mill production scheduler
(`generate_mill_recipe_schedule`) and the load aggregator
(`generate_mill_load`).

Modelling conventions:
* Python floats are modelled as exact rationals `ℚ`; the tolerances of the
  spec (1e-6, 0.01) concern the algorithm, not IEEE-754 artefacts.
* `round(x, 2)` / `round(x, 4)` are modelled as rounding to a multiple of
  1/100 (resp. 1/10000) with halves rounded up; no value appearing in any
  statement or concrete input below sits on an exact rounding tie, so
  Python's half-to-even behaviour never differs from this model on them.
* pandas dataframes are lists of records; `df[mask].iloc[0]` is the first
  matching record, and a failing `.iloc[0]` (empty selection) is an
  uncaught `IndexError`, modelled as `Except.error`.
* `groupby(keys)[col].sum().reset_index()` lists the distinct keys in
  ascending order (pandas default `sort=True`) with the summed column.
* `Series.unique()` keeps the first occurrence of each value.
* `sort_values(col, ascending=False)` is the reverse of a stable ascending
  sort: pandas reverses the ascending argsort indexer, and numpy's argsort
  is insertion sort (stable) at the array sizes produced here.
-/

namespace MC4

/-! ## Rounding (Python `round(x, n)`) -/

theorem ratFloor_eq_intFloor (q : ℚ) : q.floor = ⌊q⌋ := by
  rw [Rat.floor_def', Rat.floor_def]

/-- Python `round(x, 2)` on exact rationals. -/
def round2 (x : ℚ) : ℚ := (⌊100 * x + 1 / 2⌋ : ℤ) / 100

/-- Python `round(x, 4)` on exact rationals. -/
def round4 (x : ℚ) : ℚ := (⌊10000 * x + 1 / 2⌋ : ℤ) / 10000

theorem round2_le (x : ℚ) : round2 x ≤ x + 1 / 200 := by
  unfold round2
  have h : (⌊100 * x + 1 / 2⌋ : ℚ) ≤ 100 * x + 1 / 2 := Int.floor_le _
  linarith

theorem round2_gt (x : ℚ) : x - 1 / 200 < round2 x := by
  unfold round2
  have h : 100 * x + 1 / 2 < (⌊100 * x + 1 / 2⌋ : ℚ) + 1 := Int.lt_floor_add_one _
  linarith

theorem round2_mono {x y : ℚ} (h : x ≤ y) : round2 x ≤ round2 y := by
  unfold round2
  have h1 : (⌊100 * x + 1 / 2⌋ : ℤ) ≤ ⌊100 * y + 1 / 2⌋ :=
    Int.floor_le_floor (by linarith)
  have h2 : ((⌊100 * x + 1 / 2⌋ : ℤ) : ℚ) ≤ ((⌊100 * y + 1 / 2⌋ : ℤ) : ℚ) := by
    exact_mod_cast h1
  linarith

theorem round2_zero : round2 0 = 0 := by
  norm_num [round2]

theorem round2_half : round2 (1 / 2) = 1 / 2 := by
  norm_num [round2]

/-- Adding a half commutes with rounding to two decimals. -/
theorem round2_add_half (x : ℚ) : round2 (x + 1 / 2) = round2 x + 1 / 2 := by
  unfold round2
  have h : 100 * (x + 1 / 2) + 1 / 2 = (100 * x + 1 / 2) + (50 : ℤ) := by
    push_cast; ring
  rw [h, Int.floor_add_int]
  push_cast
  ring

theorem abs_round2_sub_le (x : ℚ) : |round2 x - x| ≤ 1 / 200 := by
  have h1 := round2_le x
  have h2 := round2_gt x
  rw [abs_le]
  constructor <;> linarith

/-! ## Records for the dataframes involved in the claims

Only the columns the scheduling core reads are modelled; e.g.
`MillCapacityRow.is_maintenance` is never read by the scheduler or the
load aggregator (`available_hours` is already 0 on maintenance days), so
it is omitted.  -/

/-- A row of the `recipe_demand` dataframe (output of
`generate_recipe_demand`, input of `generate_mill_recipe_schedule`). -/
structure RecipeDemandRow where
  date : ℕ
  flour_type : String
  recipe_id : String
  allocation_pct : ℚ
  recipe_required_tons : ℚ
deriving DecidableEq, Repr

/-- A row of the `mill_capacity` dataframe. -/
structure MillCapacityRow where
  date : ℕ
  mill_id : String
  available_hours : ℚ
deriving DecidableEq, Repr

/-- A row of the `mill_recipe_rates` dataframe. -/
structure MillRecipeRateRow where
  mill_id : String
  recipe_id : String
  tons_per_hour : ℚ
deriving DecidableEq, Repr

/-- A row of the `recipe_daily` aggregate
(`recipe_demand.groupby(["date", "recipe_id"])["recipe_required_tons"].sum()`). -/
structure DayRecipe where
  date : ℕ
  recipe_id : String
  recipe_required_tons : ℚ
deriving DecidableEq, Repr

/-- A row of the `mill_recipe_schedule` output dataframe, as built by the
dict literal at the end of the scheduling loop. -/
structure ScheduleEntry where
  date : ℕ
  mill_id : String
  recipe_id : String
  start_hour : ℚ
  end_hour : ℚ
  duration_hours : ℚ
  changeover_hours : ℚ
  tons_produced : ℚ
  recipe_cost_index : ℚ
deriving DecidableEq, Repr

/-- A row of the `mill_load` output dataframe.  `available_hours` and
`overload_hours` are `none` when the left merge with `mill_capacity`
finds no match (pandas NaN). -/
structure MillLoadRow where
  date : ℕ
  mill_id : String
  scheduled_hours : ℚ
  available_hours : Option ℚ
  overload_hours : Option ℚ
  utilization_pct : ℚ
deriving DecidableEq, Repr

/-- A row of the time dimension, restricted to the flags the recipe-mix
allocator reads. -/
structure TimeRow where
  date : ℕ
  is_ramadan : Bool
  is_hajj : Bool
deriving DecidableEq, Repr

/-- A row of the static `recipe_eligibility` table. -/
structure EligRow where
  flour_type : String
  recipe_id : String
  default_allocation_pct : ℚ
deriving DecidableEq, Repr

/-- A row of the `recipe_mix` dataframe (output of
`compute_dynamic_recipe_mix`). -/
structure RecipeMixRow where
  date : ℕ
  flour_type : String
  recipe_id : String
  allocation_pct : ℚ
deriving DecidableEq, Repr

/-- A row of the `bulk_flour_demand` dataframe. -/
structure BulkFlourRow where
  date : ℕ
  flour_type : String
  required_bulk_tons : ℚ
deriving DecidableEq, Repr

/-! ## pandas helpers -/

/-- `Series.unique()`: first occurrence of each value, in input order. -/
def uniqueFirstAux {α : Type} [DecidableEq α] (seen : List α) : List α → List α
  | [] => []
  | x :: xs =>
    if x ∈ seen then uniqueFirstAux seen xs else x :: uniqueFirstAux (x :: seen) xs

/-- `Series.unique()` on a list of values. -/
def uniqueFirst {α : Type} [DecidableEq α] (l : List α) : List α :=
  uniqueFirstAux [] l

theorem uniqueFirstAux_nodup {α : Type} [DecidableEq α] :
    ∀ (l seen : List α), ((uniqueFirstAux seen l).Nodup ∧
      ∀ x ∈ uniqueFirstAux seen l, x ∉ seen)
  | [], _ => by simp [uniqueFirstAux]
  | x :: xs, seen => by
    by_cases hx : x ∈ seen
    · simpa [uniqueFirstAux, hx] using uniqueFirstAux_nodup xs seen
    · have ih := uniqueFirstAux_nodup xs (x :: seen)
      refine ⟨?_, ?_⟩
      · simp only [uniqueFirstAux, hx, if_false, List.nodup_cons]
        exact ⟨fun hmem => by simpa using (ih.2 x hmem), ih.1⟩
      · intro y hy
        simp only [uniqueFirstAux, hx, if_false, List.mem_cons] at hy
        rcases hy with rfl | hy
        · exact hx
        · have := ih.2 y hy
          simp only [List.mem_cons, not_or] at this
          exact this.2

theorem uniqueFirst_nodup {α : Type} [DecidableEq α] (l : List α) :
    (uniqueFirst l).Nodup :=
  (uniqueFirstAux_nodup l []).1

theorem mem_uniqueFirstAux {α : Type} [DecidableEq α] :
    ∀ (l seen : List α) (x : α), x ∈ l → x ∉ seen → x ∈ uniqueFirstAux seen l
  | [], _, _, hx, _ => by simp at hx
  | y :: ys, seen, x, hx, hseen => by
    rcases List.mem_cons.1 hx with rfl | hx'
    · simp [uniqueFirstAux, hseen]
    · by_cases hy : y ∈ seen
      · simpa [uniqueFirstAux, hy] using mem_uniqueFirstAux ys seen x hx' hseen
      · by_cases hxy : x = y
        · subst hxy; simp [uniqueFirstAux, hseen]
        · simp only [uniqueFirstAux, hy, if_false, List.mem_cons]
          exact Or.inr (mem_uniqueFirstAux ys (y :: seen) x hx'
            (by simp [hxy, hseen]))

theorem mem_uniqueFirst {α : Type} [DecidableEq α] {l : List α} {x : α}
    (hx : x ∈ l) : x ∈ uniqueFirst l :=
  mem_uniqueFirstAux l [] x hx (by simp)

/-- Code-point lexicographic strict comparison of character lists: the
order Python (and hence pandas key sorting) uses on the id strings. -/
def charListLT : List Char → List Char → Bool
  | [], [] => false
  | [], _ :: _ => true
  | _ :: _, [] => false
  | c :: cs, d :: ds =>
    if c.toNat < d.toNat then true
    else if d.toNat < c.toNat then false
    else charListLT cs ds

/-- Python's `<` on strings (code-point lexicographic). -/
def strLT (a b : String) : Bool := charListLT a.data b.data

/-- Lexicographic `≤` on `(date, id)` group keys, for the ascending key
order pandas `groupby(sort=True)` produces.  The keys it is applied to are
pairwise distinct, so tie behaviour is irrelevant. -/
def keyLE (a b : ℕ × String) : Prop :=
  a.1 < b.1 ∨ (a.1 = b.1 ∧ strLT b.2 a.2 = false)

instance : DecidableRel keyLE := fun a b => by
  unfold keyLE
  infer_instance

/-- `recipe_required_tons` comparison used for the ascending leg of
`sort_values("recipe_required_tons", ascending=False)`. -/
def tonsLE (a b : DayRecipe) : Prop :=
  a.recipe_required_tons ≤ b.recipe_required_tons

instance : DecidableRel tonsLE := fun a b =>
  inferInstanceAs (Decidable (a.recipe_required_tons ≤ b.recipe_required_tons))

instance : IsTotal DayRecipe tonsLE :=
  ⟨fun a b => le_total a.recipe_required_tons b.recipe_required_tons⟩

instance : IsTrans DayRecipe tonsLE :=
  ⟨fun _ _ _ hab hbc => le_trans hab hbc⟩

/-- `df.sort_values("recipe_required_tons", ascending=False)`: pandas
computes a stable ascending argsort and reverses the indexer, so the
result is the reverse of a stable ascending sort (rows with equal keys
end up in reversed input order). -/
def sortValuesDesc (l : List DayRecipe) : List DayRecipe :=
  (List.insertionSort tonsLE l).reverse

/-! ## Mill production scheduler (`generate_mill_recipe_schedule`) -/

/-- `recipe_demand.groupby(["date", "recipe_id"])` group keys: distinct
`(date, recipe_id)` pairs in ascending key order. -/
def groupPairs (demand : List RecipeDemandRow) : List (ℕ × String) :=
  List.insertionSort keyLE (uniqueFirst (demand.map fun r => (r.date, r.recipe_id)))

/-- `recipe_daily`: per-(date, recipe) totals of `recipe_required_tons`. -/
def recipe_daily (demand : List RecipeDemandRow) : List DayRecipe :=
  (groupPairs demand).map fun k =>
    ⟨k.1, k.2,
      ((demand.filter fun r => r.date = k.1 ∧ r.recipe_id = k.2).map
        (·.recipe_required_tons)).sum⟩

/-- `day_recipes`: the rows of `recipe_daily` for one date, sorted by
required tons, biggest first. -/
def dayRecipes (demand : List RecipeDemandRow) (d : ℕ) : List DayRecipe :=
  sortValuesDesc ((recipe_daily demand).filter (·.date = d))

/-- `mill_recipe_rates[(mill) & (recipe)]["tons_per_hour"].iloc[0]`,
`none` when the selection is empty (Python raises `IndexError`). -/
def lookupRate (rates : List MillRecipeRateRow) (m r : String) : Option ℚ :=
  ((rates.filter fun x => x.mill_id = m ∧ x.recipe_id = r).head?).map
    (·.tons_per_hour)

/-- `mill_capacity[(date) & (mill)]["available_hours"].iloc[0]`, guarded
by the `cap_row.empty` check (`none` when no row matches). -/
def lookupCap (caps : List MillCapacityRow) (d : ℕ) (m : String) : Option ℚ :=
  ((caps.filter fun c => c.date = d ∧ c.mill_id = m).head?).map
    (·.available_hours)

/-- The per-entry values the loop body computes before rounding:
`current_hour`, `changeover`, `actual_hours` and the `tons_per_hour`
looked up for the entry's recipe. -/
structure RawEntry where
  recipe_id : String
  tph : ℚ
  cur : ℚ
  co : ℚ
  act : ℚ
deriving DecidableEq, Repr

/-- The changeover computation of the loop body:
`changeover = 0.5 if prev_recipe is not None and prev_recipe != recipe_id
else 0`. -/
def prevCO (prev : Option String) (r : String) : ℚ :=
  match prev with
  | none => 0
  | some p => if p = r then 0 else 1 / 2

theorem prevCO_nonneg (prev : Option String) (r : String) : 0 ≤ prevCO prev r := by
  cases prev with
  | none => simp [prevCO]
  | some p =>
    by_cases h : p = r <;> simp [prevCO, h]

theorem prevCO_none (r : String) : prevCO none r = 0 := rfl

/-- The inner `for _, rec in day_recipes.iterrows()` loop of
`generate_mill_recipe_schedule`, one (date, mill) unit, recording the
unrounded per-entry values.  Branches, in source order: rate lookup
(uncaught `IndexError` when empty), `hours_needed`, `changeover`, the
`current_hour + changeover >= available_hours` break, `actual_hours`,
the `actual_hours <= 0` skip, emission, and the final
`current_hour >= available_hours` break.  (A zero `tons_per_hour` would
raise `ZeroDivisionError` in Python; the generator's static rate table
is strictly positive, and division by zero never decides any claim.) -/
def loopRaw (rates : List MillRecipeRateRow) (mill_id : String)
    (available_hours : ℚ) :
    List DayRecipe → ℚ → Option String → Except String (List RawEntry)
  | [], _, _ => .ok []
  | rec :: rest, current_hour, prev_recipe =>
    match lookupRate rates mill_id rec.recipe_id with
    | none => .error "single positional indexer is out-of-bounds"
    | some tph =>
      let hours_needed := rec.recipe_required_tons / tph
      let changeover : ℚ := prevCO prev_recipe rec.recipe_id
      if available_hours ≤ current_hour + changeover then .ok []
      else
        let remaining := available_hours - current_hour - changeover
        let actual_hours := min hours_needed remaining
        if actual_hours ≤ 0 then
          loopRaw rates mill_id available_hours rest current_hour prev_recipe
        else
          let e : RawEntry := ⟨rec.recipe_id, tph, current_hour, changeover, actual_hours⟩
          if available_hours ≤ current_hour + changeover + actual_hours then .ok [e]
          else
            match loopRaw rates mill_id available_hours rest
                (current_hour + changeover + actual_hours) (some rec.recipe_id) with
            | .error s => .error s
            | .ok es => .ok (e :: es)

/-- The `schedule_rows.append({...})` dict literal: every numeric field is
rounded to two decimals at emission; `recipe_cost_index` comes from the
`recipe_cost` dict built from `recipe_master` (default 1.0). -/
def roundEntry (d : ℕ) (m : String) (recipe_cost : List (String × ℚ))
    (e : RawEntry) : ScheduleEntry :=
  { date := d
    mill_id := m
    recipe_id := e.recipe_id
    start_hour := round2 (e.cur + e.co)
    end_hour := round2 (e.cur + e.co + e.act)
    duration_hours := round2 e.act
    changeover_hours := round2 e.co
    tons_produced := round2 (e.act * e.tph)
    recipe_cost_index :=
      (((recipe_cost.filter (·.1 = e.recipe_id)).head?).map (·.2)).getD 1 }

/-- One (date, mill) scheduling unit: the loop started at
`current_hour = 0`, `prev_recipe = None`, with rounded emission. -/
def scheduleUnit (rates : List MillRecipeRateRow)
    (recipe_cost : List (String × ℚ)) (d : ℕ) (m : String) (a : ℚ)
    (day : List DayRecipe) : Except String (List ScheduleEntry) :=
  (loopRaw rates m a day 0 none).map (List.map (roundEntry d m recipe_cost))

/-- The `for mill_id in mill_capacity["mill_id"].unique()` loop for one
date: a mill whose capacity selection is empty is skipped
(`if cap_row.empty: continue`). -/
def unitsForDate (rates : List MillRecipeRateRow)
    (recipe_cost : List (String × ℚ)) (caps : List MillCapacityRow)
    (demand : List RecipeDemandRow) (d : ℕ) :
    List String → Except String (List ScheduleEntry)
  | [] => .ok []
  | m :: ms =>
    match lookupCap caps d m with
    | none => unitsForDate rates recipe_cost caps demand d ms
    | some a =>
      match scheduleUnit rates recipe_cost d m a (dayRecipes demand d) with
      | .error s => .error s
      | .ok u =>
        match unitsForDate rates recipe_cost caps demand d ms with
        | .error s => .error s
        | .ok rest => .ok (u ++ rest)

/-- The outer `for date in recipe_daily["date"].unique()` loop. -/
def overDates (rates : List MillRecipeRateRow)
    (recipe_cost : List (String × ℚ)) (caps : List MillCapacityRow)
    (demand : List RecipeDemandRow) (mills : List String) :
    List ℕ → Except String (List ScheduleEntry)
  | [] => .ok []
  | d :: ds =>
    match unitsForDate rates recipe_cost caps demand d mills with
    | .error s => .error s
    | .ok u =>
      match overDates rates recipe_cost caps demand mills ds with
      | .error s => .error s
      | .ok rest => .ok (u ++ rest)

/-- The dates the scheduler iterates: `recipe_daily["date"].unique()`. -/
def datesOf (demand : List RecipeDemandRow) : List ℕ :=
  uniqueFirst ((recipe_daily demand).map (·.date))

/-- The mills the scheduler iterates:
`mill_capacity["mill_id"].unique()`. -/
def millsOf (caps : List MillCapacityRow) : List String :=
  uniqueFirst (caps.map (·.mill_id))

/-- `generate_mill_recipe_schedule`.  `recipe_cost` is the
`recipe_master.set_index("recipe_id")["cost_index"].to_dict()` mapping,
passed as an association list.  An uncaught exception anywhere in the
nested loops (missing rate row) aborts the whole call with `.error`. -/
def generate_mill_recipe_schedule (demand : List RecipeDemandRow)
    (caps : List MillCapacityRow) (rates : List MillRecipeRateRow)
    (recipe_cost : List (String × ℚ)) : Except String (List ScheduleEntry) :=
  overDates rates recipe_cost caps demand (millsOf caps) (datesOf demand)

/-! ## Load aggregator (`generate_mill_load`) -/

/-- The `(date, mill_id)` group keys of
`mill_schedule.groupby(["date", "mill_id"])`. -/
def dailyLoadKeys (sched : List ScheduleEntry) : List (ℕ × String) :=
  List.insertionSort keyLE (uniqueFirst (sched.map fun e => (e.date, e.mill_id)))

/-- `generate_mill_load`: sum `duration_hours` per (date, mill) key of the
schedule, left-merge `mill_capacity`, then `overload_hours` and the
`np.where` utilization (NaN comparisons are false, so an unmatched key
falls through to the `999` / `0` branch). -/
def generate_mill_load (sched : List ScheduleEntry)
    (caps : List MillCapacityRow) : List MillLoadRow :=
  (dailyLoadKeys sched).flatMap fun k =>
    let s := ((sched.filter fun e => e.date = k.1 ∧ e.mill_id = k.2).map
      (·.duration_hours)).sum
    let capMatches := caps.filter fun c => c.date = k.1 ∧ c.mill_id = k.2
    match capMatches with
    | [] => [⟨k.1, k.2, s, none, none, round2 (if 0 < s then 999 else 0)⟩]
    | _ :: _ =>
      capMatches.map fun c =>
        ⟨k.1, k.2, s, some c.available_hours, some (s - c.available_hours),
          round2 (if 0 < c.available_hours then s / c.available_hours * 100
            else if 0 < s then 999 else 0)⟩

/-! ## Recipe mix allocator (`compute_dynamic_recipe_mix`) -/

/-- Add a bonus to the allocation of one recipe
(`eligible.loc[eligible["recipe_id"] == rid, "allocation_pct"] += bonus`). -/
def bumpAlloc (rid : String) (bonus : ℚ) (l : List (String × ℚ)) :
    List (String × ℚ) :=
  l.map fun p => if p.1 = rid then (p.1, p.2 + bonus) else p

/-- Renormalize allocations by their current sum
(`eligible["allocation_pct"] / eligible["allocation_pct"].sum()`). -/
def normalizeAlloc (l : List (String × ℚ)) : List (String × ℚ) :=
  l.map fun p => (p.1, p.2 / (l.map (·.2)).sum)

/-- The body of the per-date loop of `compute_dynamic_recipe_mix` for one
flour type: start from the default allocations of the eligible recipes,
apply the Ramadan shift (+0.15 on R2 for Superior/Patent, then
renormalize) and the Hajj shift (+0.10 on R4 for Bakery, then
renormalize), each guarded by the target recipe being eligible, and emit
one row per recipe with `allocation_pct` rounded to 4 decimals. -/
def mixForFlour (row : TimeRow) (elig : List EligRow) (ft : String) :
    List RecipeMixRow :=
  let eligible := elig.filter (·.flour_type = ft)
  let alloc0 : List (String × ℚ) :=
    eligible.map fun e => (e.recipe_id, e.default_allocation_pct)
  let alloc1 :=
    if row.is_ramadan ∧ (ft = "Superior" ∨ ft = "Patent") ∧
        (eligible.map (·.recipe_id)).contains "R2" then
      normalizeAlloc (bumpAlloc "R2" (15 / 100) alloc0)
    else alloc0
  let alloc2 :=
    if row.is_hajj ∧ ft = "Bakery" ∧
        (eligible.map (·.recipe_id)).contains "R4" then
      normalizeAlloc (bumpAlloc "R4" (1 / 10) alloc1)
    else alloc1
  alloc2.map fun p => ⟨row.date, ft, p.1, round4 p.2⟩

/-- One date of `compute_dynamic_recipe_mix`: iterate the flour types of
`recipe_eligibility["flour_type"].unique()`. -/
def mixForDate (row : TimeRow) (elig : List EligRow) : List RecipeMixRow :=
  (uniqueFirst (elig.map (·.flour_type))).flatMap (mixForFlour row elig)

/-- `compute_dynamic_recipe_mix`: one block of rows per time-dimension
row. -/
def compute_dynamic_recipe_mix (time_dim : List TimeRow)
    (elig : List EligRow) : List RecipeMixRow :=
  time_dim.flatMap (mixForDate · elig)

/-! ## Recipe demand computation (`generate_recipe_demand`) -/

/-- `generate_recipe_demand`: inner merge of `bulk_flour_demand` with
`recipe_mix` on `(date, flour_type)`, then
`recipe_required_tons = required_bulk_tons * allocation_pct`.  The
function returns the merged dataframe and nothing else: it contains no
logging call, so a flour type with no matching mix rows disappears from
the output without any warning. -/
def generate_recipe_demand (bulk : List BulkFlourRow)
    (mix : List RecipeMixRow) : List RecipeDemandRow :=
  bulk.flatMap fun b =>
    (mix.filter fun m => m.date = b.date ∧ m.flour_type = b.flour_type).map
      fun m =>
        ⟨b.date, b.flour_type, m.recipe_id, m.allocation_pct,
          b.required_bulk_tons * m.allocation_pct⟩

/-! ## Static configuration tables of the repository -/

/-- The `generate_recipe_eligibility` table of the source. -/
def repoEligibility : List EligRow :=
  [⟨"Superior", "R1", 60 / 100⟩,
   ⟨"Superior", "R2", 40 / 100⟩,
   ⟨"Bakery", "R2", 50 / 100⟩,
   ⟨"Bakery", "R4", 50 / 100⟩,
   ⟨"Patent", "R2", 70 / 100⟩,
   ⟨"Patent", "R5", 30 / 100⟩,
   ⟨"Brown", "R3", 1⟩,
   ⟨"Superior Brown", "R3", 1⟩]

/-- Sum of the emitted `allocation_pct` over the rows of one
`(date, flour_type)` key. -/
def sumAlloc (d : ℕ) (ft : String) (rows : List RecipeMixRow) : ℚ :=
  ((rows.filter fun r => r.date = d ∧ r.flour_type = ft).map
    (·.allocation_pct)).sum

/-- The invariant tying the raw entries emitted by `loopRaw` to the loop
state they were emitted from: each entry records the loop's
`current_hour`, a positive `actual_hours`, the changeover computed from
the previous emitted recipe, a total not exceeding `available_hours`,
and the looked-up rate; the next entry continues from the advanced
state. -/
def RawGood (rates : List MillRecipeRateRow) (m : String) (a : ℚ) :
    ℚ → Option String → List RawEntry → Prop
  | _, _, [] => True
  | cur, prev, e :: rest =>
    e.cur = cur ∧ 0 < e.act ∧ e.co = prevCO prev e.recipe_id ∧
      cur + e.co + e.act ≤ a ∧ lookupRate rates m e.recipe_id = some e.tph ∧
      RawGood rates m a (cur + e.co + e.act) (some e.recipe_id) rest

/-- The recipes of a raw entry list, in emission order. -/
def recipesOfRaw (raws : List RawEntry) : List String :=
  raws.map (·.recipe_id)

/-- The recipes of a day-recipe list, in iteration order. -/
def recipesOfDay (l : List DayRecipe) : List String :=
  l.map (·.recipe_id)

/-- Every successful run of the scheduling loop satisfies `RawGood`, and
emits recipes forming a sublist of the day's recipe list. -/
theorem loopRaw_good (rates : List MillRecipeRateRow) (m : String) (a : ℚ) :
    ∀ (l : List DayRecipe) (cur : ℚ) (prev : Option String)
      (raws : List RawEntry),
      loopRaw rates m a l cur prev = .ok raws →
      RawGood rates m a cur prev raws ∧
        List.Sublist (recipesOfRaw raws) (recipesOfDay l)
  | [], cur, prev, raws => by
    intro h
    simp only [loopRaw] at h
    cases h
    simp [RawGood, recipesOfRaw, recipesOfDay]
  | rec :: rest, cur, prev, raws => by
    intro h
    rw [loopRaw] at h
    split at h
    · exact absurd h (by simp)
    · rename_i tph hL
      dsimp only at h
      split at h
      · -- capacity break before any production
        cases h
        simp [RawGood, recipesOfRaw, recipesOfDay]
      · rename_i hbrk
        split at h
        · -- actual_hours <= 0: skip the recipe row
          rename_i hskip
          have ih := loopRaw_good rates m a rest cur prev raws h
          refine ⟨ih.1, ih.2.trans ?_⟩
          simp [recipesOfDay]
        · rename_i hskip
          split at h
          · -- emit and stop (capacity exhausted)
            rename_i hstop
            cases h
            refine ⟨⟨rfl, lt_of_not_le hskip, rfl, ?_, hL, trivial⟩, ?_⟩
            · have hmin : min (rec.recipe_required_tons / tph)
                  (a - cur - prevCO prev rec.recipe_id) ≤
                  a - cur - prevCO prev rec.recipe_id := min_le_right _ _
              linarith
            · simp only [recipesOfRaw, recipesOfDay, List.map_cons, List.map_nil]
              exact (List.nil_sublist _).cons₂ _
          · -- emit and continue
            rename_i hstop
            split at h
            · exact absurd h (by simp)
            · rename_i es hrec
              cases h
              have ih := loopRaw_good rates m a rest _ _ es hrec
              refine ⟨⟨rfl, lt_of_not_le hskip, rfl, ?_, hL, ih.1⟩, ?_⟩
              · have hmin : min (rec.recipe_required_tons / tph)
                    (a - cur - prevCO prev rec.recipe_id) ≤
                    a - cur - prevCO prev rec.recipe_id := min_le_right _ _
                linarith
              · simp only [recipesOfRaw, recipesOfDay, List.map_cons]
                exact ih.2.cons₂ _

theorem recipesOfRaw_cons (e : RawEntry) (rest : List RawEntry) :
    recipesOfRaw (e :: rest) = e.recipe_id :: recipesOfRaw rest := rfl

/-- Each emitted raw entry carries the rate its recipe looks up on this
mill, and a positive actual duration. -/
theorem rawGood_mem (rates : List MillRecipeRateRow) (m : String) (a : ℚ) :
    ∀ (raws : List RawEntry) (cur : ℚ) (prev : Option String),
      RawGood rates m a cur prev raws →
      ∀ e ∈ raws, lookupRate rates m e.recipe_id = some e.tph ∧ 0 < e.act
  | [], _, _, _ => by simp
  | e :: rest, cur, prev, hg => by
    obtain ⟨-, hact, -, -, hrate, hrest⟩ := hg
    intro x hx
    rcases List.mem_cons.1 hx with rfl | hx'
    · exact ⟨hrate, hact⟩
    · exact rawGood_mem rates m a rest _ _ hrest x hx'

/-- Sum bound for a tail of the loop that already has a previous emitted
recipe: every entry pays the 0.5 h changeover, so the rounded durations
sum to at most the remaining capacity plus `n/200 - n/2`. -/
theorem rawSum_some (rates : List MillRecipeRateRow) (m : String) (a : ℚ) :
    ∀ (raws : List RawEntry) (cur : ℚ) (p : String),
      RawGood rates m a cur (some p) raws → cur ≤ a →
      p ∉ recipesOfRaw raws → (recipesOfRaw raws).Nodup →
      ((raws.map fun e => round2 e.act).sum ≤
        (a - cur) + raws.length / 200 - raws.length / 2)
  | [], cur, p, _, hcur, _, _ => by
    simp
    linarith
  | e :: rest, cur, p, hg, hcur, hnotin, hnd => by
    obtain ⟨-, hact, hco, hle, -, hrest⟩ := hg
    have hpne : p ≠ e.recipe_id := by
      intro hpe
      exact hnotin (by simp [recipesOfRaw, hpe])
    have hco2 : e.co = 1 / 2 := by
      rw [hco]
      simp only [prevCO]
      rw [if_neg hpne]
    rw [hco2] at hle hrest
    rw [recipesOfRaw_cons] at hnd
    obtain ⟨hnotin', hnd'⟩ := List.nodup_cons.1 hnd
    have hcur' : cur + 1 / 2 + e.act ≤ a := hle
    have ih := rawSum_some rates m a rest (cur + 1 / 2 + e.act) e.recipe_id
      hrest hcur' hnotin' hnd'
    have hr := round2_le e.act
    simp only [List.map_cons, List.sum_cons, List.length_cons]
    push_cast
    push_cast at ih
    linarith

/-- Sum bound for a whole (date, mill) unit: when `available_hours` is a
nonnegative two-decimal value and the day's recipes are pairwise
distinct, the rounded durations sum to at most
`available_hours + 1e-6`. -/
theorem rawSum_top (rates : List MillRecipeRateRow) (m : String) (a : ℚ)
    (raws : List RawEntry) (hg : RawGood rates m a 0 none raws)
    (ha : 0 ≤ a) (ha2 : round2 a = a) (hnd : (recipesOfRaw raws).Nodup) :
    (raws.map fun e => round2 e.act).sum ≤ a + 1 / 1000000 := by
  cases raws with
  | nil => simp; linarith
  | cons e rest =>
    obtain ⟨hecur, hact, hco, hle, -, hrest⟩ := hg
    have hco0 : e.co = 0 := hco
    rw [hco0] at hle hrest
    simp only [zero_add] at hle hrest
    have hactle : e.act ≤ a := by linarith
    cases rest with
    | nil =>
      simp only [List.map_cons, List.map_nil, List.sum_cons, List.sum_nil,
        add_zero]
      calc round2 e.act ≤ round2 a := round2_mono hactle
        _ = a := ha2
        _ ≤ a + 1 / 1000000 := by linarith
    | cons e2 rest2 =>
      rw [recipesOfRaw_cons] at hnd
      obtain ⟨hnotin', hnd'⟩ := List.nodup_cons.1 hnd
      have ih := rawSum_some rates m a (e2 :: rest2) e.act e.recipe_id
        hrest hactle hnotin' hnd'
      have hr := round2_le e.act
      have hlen : (1 : ℚ) ≤ (e2 :: rest2).length := by
        have : 1 ≤ (e2 :: rest2).length := by simp
        exact_mod_cast this
      simp only [List.map_cons, List.sum_cons] at ih ⊢
      linarith

theorem roundEntry_recipe (d : ℕ) (m : String) (rc : List (String × ℚ))
    (e : RawEntry) : (roundEntry d m rc e).recipe_id = e.recipe_id := rfl

theorem roundEntry_co (d : ℕ) (m : String) (rc : List (String × ℚ))
    (e : RawEntry) : (roundEntry d m rc e).changeover_hours = round2 e.co := rfl

/-- Changeover structure of a unit's rounded entries: an entry's stored
changeover is 0.5 exactly when its recipe differs from the previous
emitted entry's recipe, and the head entry's changeover is the rounded
changeover against the incoming `prev_recipe`. -/
theorem rawGood_chainCO (rates : List MillRecipeRateRow) (m : String)
    (a : ℚ) (d : ℕ) (rc : List (String × ℚ)) :
    ∀ (raws : List RawEntry) (cur : ℚ) (prev : Option String),
      RawGood rates m a cur prev raws →
      List.Chain' (fun x y : ScheduleEntry =>
          y.changeover_hours = 1 / 2 ↔ y.recipe_id ≠ x.recipe_id)
        (raws.map (roundEntry d m rc)) ∧
      ∀ e ∈ (raws.map (roundEntry d m rc)).head?,
        e.changeover_hours = round2 (prevCO prev e.recipe_id)
  | [], _, _, _ => by simp
  | [e], cur, prev, hg => by
    obtain ⟨-, -, hco, -, -, -⟩ := hg
    refine ⟨by simp, ?_⟩
    intro x hx
    simp only [List.map_cons, List.map_nil, List.head?_cons,
      Option.mem_def, Option.some_inj] at hx
    subst hx
    rw [roundEntry_co, roundEntry_recipe, hco]
  | e :: e2 :: rest, cur, prev, hg => by
    obtain ⟨-, -, hco, -, -, hrest⟩ := hg
    have ih := rawGood_chainCO rates m a d rc (e2 :: rest) _ _ hrest
    have hco2 : (roundEntry d m rc e2).changeover_hours =
        round2 (prevCO (some e.recipe_id) e2.recipe_id) := by
      apply ih.2
      simp
    refine ⟨?_, ?_⟩
    · simp only [List.map_cons] at ih ⊢
      rw [List.chain'_cons]
      refine ⟨?_, ih.1⟩
      rw [hco2, roundEntry_recipe, roundEntry_recipe]
      by_cases hr : e.recipe_id = e2.recipe_id
      · have h1 : prevCO (some e.recipe_id) e2.recipe_id = 0 := by
          simp [prevCO, hr]
        rw [h1, round2_zero]
        constructor
        · intro h0
          exact absurd h0 (by norm_num)
        · intro hne
          exact absurd hr.symm hne
      · have h1 : prevCO (some e.recipe_id) e2.recipe_id = 1 / 2 := by
          simp only [prevCO]
          rw [if_neg hr]
        rw [h1, round2_half]
        exact ⟨fun _ hc => hr hc.symm, fun _ => rfl⟩
    · intro x hx
      simp only [List.map_cons, List.head?_cons, Option.mem_def,
        Option.some_inj] at hx
      subst hx
      rw [roundEntry_co, roundEntry_recipe, hco]

theorem roundEntry_start (d : ℕ) (m : String) (rc : List (String × ℚ))
    (e : RawEntry) : (roundEntry d m rc e).start_hour = round2 (e.cur + e.co) := rfl

theorem roundEntry_end (d : ℕ) (m : String) (rc : List (String × ℚ))
    (e : RawEntry) :
    (roundEntry d m rc e).end_hour = round2 (e.cur + e.co + e.act) := rfl

/-- Hour structure of a unit's rounded entries: consecutive entries are
packed back to back — the previous entry's end is exactly the next
entry's start minus its changeover, starts are nondecreasing, and the
previous end never exceeds the next start. -/
theorem rawGood_chainHours (rates : List MillRecipeRateRow) (m : String)
    (a : ℚ) (d : ℕ) (rc : List (String × ℚ)) :
    ∀ (raws : List RawEntry) (cur : ℚ) (prev : Option String),
      RawGood rates m a cur prev raws →
      List.Chain' (fun x y : ScheduleEntry =>
          x.end_hour = y.start_hour - y.changeover_hours ∧
          x.start_hour ≤ y.start_hour ∧ x.end_hour ≤ y.start_hour)
        (raws.map (roundEntry d m rc))
  | [], _, _, _ => by simp
  | [e], _, _, _ => by simp
  | e :: e2 :: rest, cur, prev, hg => by
    obtain ⟨hecur, hact, -, -, -, hrest⟩ := hg
    have ih := rawGood_chainHours rates m a d rc (e2 :: rest) _ _ hrest
    obtain ⟨he2cur, -, hco2, -, -, -⟩ := hrest
    simp only [List.map_cons] at ih ⊢
    rw [List.chain'_cons]
    refine ⟨?_, ih⟩
    have hcoval : e2.co = 0 ∨ e2.co = 1 / 2 := by
      rw [hco2]
      simp only [prevCO]
      by_cases hr : e.recipe_id = e2.recipe_id
      · rw [if_pos hr]; exact Or.inl rfl
      · rw [if_neg hr]; exact Or.inr rfl
    have hkey : round2 (e2.cur + e2.co) - round2 e2.co = round2 e2.cur := by
      rcases hcoval with h0 | h05
      · rw [h0, add_zero, round2_zero, sub_zero]
      · rw [h05, round2_add_half, round2_half]
        ring
    refine ⟨?_, ?_, ?_⟩
    · rw [roundEntry_end, roundEntry_start, roundEntry_co, hkey, he2cur, hecur]
    · rw [roundEntry_start, roundEntry_start]
      apply round2_mono
      have hco2nn : 0 ≤ e2.co := by
        rcases hcoval with h | h
        · rw [h]
        · rw [h]; norm_num
      rw [he2cur, hecur]
      linarith
    · rw [roundEntry_end, roundEntry_start]
      apply round2_mono
      have hco2nn : 0 ≤ e2.co := by
        rcases hcoval with h | h
        · rw [h]
        · rw [h]; norm_num
      rw [he2cur, hecur]
      linarith

/-- Every entry a unit emits carries that unit's date and mill. -/
theorem scheduleUnit_mem {rates : List MillRecipeRateRow}
    {rc : List (String × ℚ)} {d : ℕ} {m : String} {a : ℚ}
    {day : List DayRecipe} {u : List ScheduleEntry}
    (h : scheduleUnit rates rc d m a day = .ok u) :
    ∀ e ∈ u, e.date = d ∧ e.mill_id = m := by
  unfold scheduleUnit at h
  cases hL : loopRaw rates m a day 0 none with
  | error s => rw [hL] at h; cases h
  | ok raws =>
    rw [hL] at h
    simp only [Except.map] at h
    cases h
    intro e he
    obtain ⟨raw, -, rfl⟩ := List.mem_map.1 he
    exact ⟨rfl, rfl⟩

/-- Entries of a per-date pass carry the date, a mill from the iterated
list, and a successful capacity lookup. -/
theorem unitsForDate_mem {rates : List MillRecipeRateRow}
    {rc : List (String × ℚ)} {caps : List MillCapacityRow}
    {demand : List RecipeDemandRow} {d : ℕ} :
    ∀ {ms : List String} {es : List ScheduleEntry},
      unitsForDate rates rc caps demand d ms = .ok es →
      ∀ e ∈ es, e.date = d ∧ e.mill_id ∈ ms ∧
        ∃ aa, lookupCap caps d e.mill_id = some aa
  | [], es, h => by
    simp only [unitsForDate] at h
    cases h
    simp
  | m :: ms, es, h => by
    simp only [unitsForDate] at h
    cases hC : lookupCap caps d m with
    | none =>
      rw [hC] at h
      intro e he
      obtain ⟨h1, h2, h3⟩ := unitsForDate_mem h e he
      exact ⟨h1, List.mem_cons_of_mem _ h2, h3⟩
    | some aa =>
      simp only [hC] at h
      cases hU : scheduleUnit rates rc d m aa (dayRecipes demand d) with
      | error s => simp only [hU] at h; exact Except.noConfusion h
      | ok u =>
        simp only [hU] at h
        cases hR : unitsForDate rates rc caps demand d ms with
        | error s => simp only [hR] at h; exact Except.noConfusion h
        | ok rest =>
          simp only [hR] at h
          cases h
          intro e he
          rcases List.mem_append.1 he with heu | her
          · obtain ⟨h1, h2⟩ := scheduleUnit_mem hU e heu
            exact ⟨h1, by simp [h2], h2 ▸ ⟨aa, hC⟩⟩
          · obtain ⟨h1, h2, h3⟩ := unitsForDate_mem hR e her
            exact ⟨h1, List.mem_cons_of_mem _ h2, h3⟩

/-- Restricting a per-date pass to one iterated mill with a successful
capacity lookup recovers exactly that mill's unit output. -/
theorem unitsForDate_unit {rates : List MillRecipeRateRow}
    {rc : List (String × ℚ)} {caps : List MillCapacityRow}
    {demand : List RecipeDemandRow} {d : ℕ} :
    ∀ {ms : List String} {es : List ScheduleEntry},
      ms.Nodup → unitsForDate rates rc caps demand d ms = .ok es →
      ∀ (m : String) (aa : ℚ), m ∈ ms → lookupCap caps d m = some aa →
      scheduleUnit rates rc d m aa (dayRecipes demand d) =
        .ok (es.filter fun e => e.mill_id = m)
  | [], es, _, h => by
    intro m aa hm
    simp at hm
  | m1 :: ms, es, hnd, h => by
    intro m aa hm hcap
    simp only [unitsForDate] at h
    obtain ⟨hm1, hndtl⟩ := List.nodup_cons.1 hnd
    cases hC : lookupCap caps d m1 with
    | none =>
      simp only [hC] at h
      rcases List.mem_cons.1 hm with rfl | hm'
      · rw [hC] at hcap; cases hcap
      · exact unitsForDate_unit hndtl h m aa hm' hcap
    | some a1 =>
      simp only [hC] at h
      cases hU : scheduleUnit rates rc d m1 a1 (dayRecipes demand d) with
      | error s => simp only [hU] at h; exact Except.noConfusion h
      | ok u =>
        simp only [hU] at h
        cases hR : unitsForDate rates rc caps demand d ms with
        | error s => simp only [hR] at h; exact Except.noConfusion h
        | ok rest =>
          simp only [hR] at h
          cases h
          rw [List.filter_append]
          rcases List.mem_cons.1 hm with rfl | hm'
          · rw [hC] at hcap
            injection hcap with haa
            subst haa
            have hu : u.filter (fun e => e.mill_id = m) = u := by
              rw [List.filter_eq_self]
              intro e he
              simp [(scheduleUnit_mem hU e he).2]
            have hrest : rest.filter (fun e => e.mill_id = m) = [] := by
              rw [List.filter_eq_nil_iff]
              intro e he
              obtain ⟨-, h2, -⟩ := unitsForDate_mem hR e he
              simp only [decide_eq_true_eq]
              intro hcontra
              rw [hcontra] at h2
              exact hm1 h2
            rw [hu, hrest, List.append_nil]
            exact hU
          · have hm1m : m1 ≠ m := by
              intro hcontra
              rw [hcontra] at hm1
              exact hm1 hm'
            have hu : u.filter (fun e => e.mill_id = m) = [] := by
              rw [List.filter_eq_nil_iff]
              intro e he
              simp only [decide_eq_true_eq]
              rw [(scheduleUnit_mem hU e he).2]
              exact hm1m
            rw [hu, List.nil_append]
            exact unitsForDate_unit hndtl hR m aa hm' hcap

/-- Entries of the full pass carry an iterated date, an iterated mill,
and a successful capacity lookup. -/
theorem overDates_mem {rates : List MillRecipeRateRow}
    {rc : List (String × ℚ)} {caps : List MillCapacityRow}
    {demand : List RecipeDemandRow} {mills : List String} :
    ∀ {ds : List ℕ} {es : List ScheduleEntry},
      overDates rates rc caps demand mills ds = .ok es →
      ∀ e ∈ es, e.date ∈ ds ∧ e.mill_id ∈ mills ∧
        ∃ aa, lookupCap caps e.date e.mill_id = some aa
  | [], es, h => by
    simp only [overDates] at h
    cases h
    simp
  | d :: ds, es, h => by
    simp only [overDates] at h
    cases hU : unitsForDate rates rc caps demand d mills with
    | error s => simp only [hU] at h; exact Except.noConfusion h
    | ok u =>
      simp only [hU] at h
      cases hR : overDates rates rc caps demand mills ds with
      | error s => simp only [hR] at h; exact Except.noConfusion h
      | ok rest =>
        simp only [hR] at h
        cases h
        intro e he
        rcases List.mem_append.1 he with heu | her
        · obtain ⟨h1, h2, h3⟩ := unitsForDate_mem hU e heu
          exact ⟨by simp [h1], h2, h1 ▸ h3⟩
        · obtain ⟨h1, h2, h3⟩ := overDates_mem hR e her
          exact ⟨List.mem_cons_of_mem _ h1, h2, h3⟩

/-- Restricting the full pass to one iterated (date, mill) with a
successful capacity lookup recovers exactly that unit's output. -/
theorem overDates_unit {rates : List MillRecipeRateRow}
    {rc : List (String × ℚ)} {caps : List MillCapacityRow}
    {demand : List RecipeDemandRow} {mills : List String} :
    ∀ {ds : List ℕ} {es : List ScheduleEntry},
      ds.Nodup → mills.Nodup →
      overDates rates rc caps demand mills ds = .ok es →
      ∀ (d : ℕ) (m : String) (aa : ℚ), d ∈ ds → m ∈ mills →
        lookupCap caps d m = some aa →
        scheduleUnit rates rc d m aa (dayRecipes demand d) =
          .ok (es.filter fun e => e.date = d ∧ e.mill_id = m)
  | [], es, _, _, h => by
    intro d m aa hd
    simp at hd
  | d1 :: ds, es, hndd, hndm, h => by
    intro d m aa hd hm hcap
    simp only [overDates] at h
    obtain ⟨hd1, hndtl⟩ := List.nodup_cons.1 hndd
    cases hU : unitsForDate rates rc caps demand d1 mills with
    | error s => simp only [hU] at h; exact Except.noConfusion h
    | ok u =>
      simp only [hU] at h
      cases hR : overDates rates rc caps demand mills ds with
      | error s => simp only [hR] at h; exact Except.noConfusion h
      | ok rest =>
        simp only [hR] at h
        cases h
        rw [List.filter_append]
        rcases List.mem_cons.1 hd with rfl | hd'
        · have hu : u.filter (fun e => e.date = d ∧ e.mill_id = m) =
              u.filter (fun e => e.mill_id = m) := by
            apply List.filter_congr
            intro e he
            simp [(unitsForDate_mem hU e he).1]
          have hrest : rest.filter (fun e => e.date = d ∧ e.mill_id = m) = [] := by
            rw [List.filter_eq_nil_iff]
            intro e he
            obtain ⟨h1, -, -⟩ := overDates_mem hR e he
            simp only [decide_eq_true_eq, not_and]
            intro hcontra
            rw [hcontra] at h1
            exact absurd h1 hd1
          rw [hu, hrest, List.append_nil]
          exact unitsForDate_unit hndm hU m aa hm hcap
        · have hd1d : d1 ≠ d := by
            intro hcontra
            rw [hcontra] at hd1
            exact hd1 hd'
          have hu : u.filter (fun e => e.date = d ∧ e.mill_id = m) = [] := by
            rw [List.filter_eq_nil_iff]
            intro e he
            simp only [decide_eq_true_eq, not_and]
            intro hcontra
            rw [(unitsForDate_mem hU e he).1] at hcontra
            exact absurd hcontra hd1d
          rw [hu, List.nil_append]
          exact overDates_unit hndtl hndm hR d m aa hd' hm hcap

/-- A successful capacity lookup pins an actual capacity row. -/
theorem lookupCap_row {caps : List MillCapacityRow} {d : ℕ} {m : String}
    {aa : ℚ} (h : lookupCap caps d m = some aa) :
    ∃ c ∈ caps, c.date = d ∧ c.mill_id = m ∧ c.available_hours = aa := by
  unfold lookupCap at h
  cases hf : caps.filter (fun c => c.date = d ∧ c.mill_id = m) with
  | nil => rw [hf] at h; cases h
  | cons c cs =>
    rw [hf] at h
    simp only [List.head?_cons, Option.map_some', Option.some_inj] at h
    have hc : c ∈ caps.filter (fun c => c.date = d ∧ c.mill_id = m) := by
      rw [hf]; simp
    obtain ⟨hmem, hpred⟩ := List.mem_filter.1 hc
    simp only [decide_eq_true_eq] at hpred
    exact ⟨c, hmem, hpred.1, hpred.2, h⟩

/-- A mill with a capacity row on some date is among the iterated mills. -/
theorem lookupCap_mills {caps : List MillCapacityRow} {d : ℕ} {m : String}
    {aa : ℚ} (h : lookupCap caps d m = some aa) : m ∈ millsOf caps := by
  obtain ⟨c, hmem, -, hm, -⟩ := lookupCap_row h
  exact hm ▸ mem_uniqueFirst (List.mem_map_of_mem _ hmem)

/-- A date with no demand rows has an empty day-recipe list. -/
theorem dayRecipes_nil {demand : List RecipeDemandRow} {d : ℕ}
    (h : d ∉ datesOf demand) : dayRecipes demand d = [] := by
  have hf : (recipe_daily demand).filter (·.date = d) = [] := by
    rw [List.filter_eq_nil_iff]
    intro r hr
    simp only [decide_eq_true_eq]
    intro hcontra
    exact h (mem_uniqueFirst (List.mem_map.2 ⟨r, hr, hcontra⟩))
  unfold dayRecipes
  rw [hf]
  rfl

/-- Restricting a successful full schedule to one (date, mill) with a
capacity row recovers exactly that unit's output. -/
theorem generate_unit {demand : List RecipeDemandRow}
    {caps : List MillCapacityRow} {rates : List MillRecipeRateRow}
    {rc : List (String × ℚ)} {es : List ScheduleEntry} {d : ℕ} {m : String}
    {aa : ℚ}
    (h : generate_mill_recipe_schedule demand caps rates rc = .ok es)
    (hcap : lookupCap caps d m = some aa) :
    scheduleUnit rates rc d m aa (dayRecipes demand d) =
      .ok (es.filter fun e => e.date = d ∧ e.mill_id = m) := by
  unfold generate_mill_recipe_schedule at h
  by_cases hd : d ∈ datesOf demand
  · exact overDates_unit (uniqueFirst_nodup _) (uniqueFirst_nodup _) h d m aa
      hd (lookupCap_mills hcap) hcap
  · have h2 : es.filter (fun e => e.date = d ∧ e.mill_id = m) = [] := by
      rw [List.filter_eq_nil_iff]
      intro e he
      obtain ⟨h1, -, -⟩ := overDates_mem h e he
      simp only [decide_eq_true_eq, not_and]
      intro hcontra
      rw [hcontra] at h1
      exact absurd h1 hd
    rw [h2, dayRecipes_nil hd]
    rfl

/-- A (date, mill) with no capacity row contributes no entries to a
successful full schedule. -/
theorem generate_capNone {demand : List RecipeDemandRow}
    {caps : List MillCapacityRow} {rates : List MillRecipeRateRow}
    {rc : List (String × ℚ)} {es : List ScheduleEntry} {d : ℕ} {m : String}
    (h : generate_mill_recipe_schedule demand caps rates rc = .ok es)
    (hcap : lookupCap caps d m = none) :
    es.filter (fun e => e.date = d ∧ e.mill_id = m) = [] := by
  unfold generate_mill_recipe_schedule at h
  rw [List.filter_eq_nil_iff]
  intro e he
  obtain ⟨-, -, ⟨aa, hsome⟩⟩ := overDates_mem h e he
  simp only [decide_eq_true_eq, not_and]
  intro hd hm
  rw [hd, hm] at hsome
  rw [hsome] at hcap
  cases hcap

/-- The group keys of the daily aggregation are pairwise distinct. -/
theorem groupPairs_nodup (demand : List RecipeDemandRow) :
    (groupPairs demand).Nodup := by
  unfold groupPairs
  exact (List.perm_insertionSort _ _).nodup_iff.2 (uniqueFirst_nodup _)

theorem recipe_daily_pairs (demand : List RecipeDemandRow) :
    (recipe_daily demand).map (fun r => (r.date, r.recipe_id)) =
      groupPairs demand := by
  unfold recipe_daily
  rw [List.map_map]
  conv_rhs => rw [← List.map_id (groupPairs demand)]
  apply List.map_congr_left
  intro k _
  rfl

theorem sndNodup {d : ℕ} :
    ∀ (l : List (ℕ × String)), l.Nodup → (∀ x ∈ l, x.1 = d) →
      (l.map Prod.snd).Nodup
  | [], _, _ => by simp
  | x :: rest, hnd, hfst => by
    obtain ⟨hx, hrest⟩ := List.nodup_cons.1 hnd
    simp only [List.map_cons, List.nodup_cons]
    refine ⟨?_, sndNodup rest hrest fun y hy => hfst y (List.mem_cons_of_mem _ hy)⟩
    intro hmem
    obtain ⟨y, hy, hyx⟩ := List.mem_map.1 hmem
    have hxy : y = x := by
      have h1 : y.1 = d := hfst y (List.mem_cons_of_mem _ hy)
      have h2 : x.1 = d := hfst x (List.mem_cons_self _ _)
      cases x; cases y
      simp only at h1 h2 hyx
      simp [h1, h2, hyx]
    exact hx (hxy ▸ hy)

/-- The recipes of one day's sorted demand list are pairwise distinct
(the aggregation produced one row per (date, recipe)). -/
theorem dayRecipes_recipes_nodup (demand : List RecipeDemandRow) (d : ℕ) :
    (recipesOfDay (dayRecipes demand d)).Nodup := by
  have hpairs : (((recipe_daily demand).filter (·.date = d)).map
      (fun r => (r.date, r.recipe_id))).Nodup := by
    have hsub : List.Sublist
        (((recipe_daily demand).filter (·.date = d)).map
          (fun r => (r.date, r.recipe_id)))
        ((recipe_daily demand).map (fun r => (r.date, r.recipe_id))) :=
      (List.filter_sublist _).map _
    rw [recipe_daily_pairs] at hsub
    exact hsub.nodup (groupPairs_nodup demand)
  have hfst : ∀ x ∈ ((recipe_daily demand).filter (·.date = d)).map
      (fun r => (r.date, r.recipe_id)), x.1 = d := by
    intro x hx
    obtain ⟨r, hr, rfl⟩ := List.mem_map.1 hx
    exact of_decide_eq_true (List.mem_filter.1 hr).2
  have hbase : (recipesOfDay ((recipe_daily demand).filter (·.date = d))).Nodup := by
    have := sndNodup _ hpairs hfst
    rw [List.map_map] at this
    exact this
  have hperm : List.Perm (recipesOfDay (dayRecipes demand d))
      (recipesOfDay ((recipe_daily demand).filter (·.date = d))) := by
    unfold dayRecipes sortValuesDesc recipesOfDay
    exact ((List.reverse_perm _).map _).trans
      ((List.perm_insertionSort _ _).map _)
  exact hperm.nodup_iff.2 hbase

/-- Decompose a unit's output into its raw entries. -/
theorem scheduleUnit_raws {rates : List MillRecipeRateRow}
    {rc : List (String × ℚ)} {d : ℕ} {m : String} {a : ℚ}
    {day : List DayRecipe} {u : List ScheduleEntry}
    (h : scheduleUnit rates rc d m a day = .ok u) :
    ∃ raws : List RawEntry, loopRaw rates m a day 0 none = .ok raws ∧
      u = raws.map (roundEntry d m rc) := by
  unfold scheduleUnit at h
  cases hL : loopRaw rates m a day 0 none with
  | error s => rw [hL] at h; cases h
  | ok raws =>
    rw [hL] at h
    simp only [Except.map] at h
    cases h
    exact ⟨raws, rfl, rfl⟩

/-- C2.  For every (date, mill) with a capacity row, provided every
capacity value is a nonnegative two-decimal number (as
`generate_mill_capacity` produces via `round(..., 2)`), the emitted
durations for that date and mill sum to at most
`available_hours + 1e-6`. -/
theorem C2_capacity_bound (demand : List RecipeDemandRow)
    (caps : List MillCapacityRow) (rates : List MillRecipeRateRow)
    (rc : List (String × ℚ)) (es : List ScheduleEntry) (d : ℕ) (m : String)
    (aa : ℚ)
    (hcaps : ∀ c ∈ caps, 0 ≤ c.available_hours ∧
      round2 c.available_hours = c.available_hours)
    (h : generate_mill_recipe_schedule demand caps rates rc = .ok es)
    (hcap : lookupCap caps d m = some aa) :
    ((es.filter fun e => e.date = d ∧ e.mill_id = m).map
      (·.duration_hours)).sum ≤ aa + 1 / 1000000 := by
  obtain ⟨c, hcmem, -, -, hcval⟩ := lookupCap_row hcap
  obtain ⟨ha0, ha2⟩ := hcaps c hcmem
  rw [hcval] at ha0 ha2
  have hu := generate_unit h hcap
  obtain ⟨raws, hL, hmap⟩ := scheduleUnit_raws hu
  have hgood := loopRaw_good rates m aa (dayRecipes demand d) 0 none raws hL
  have hnd : (recipesOfRaw raws).Nodup :=
    hgood.2.nodup (dayRecipes_recipes_nodup demand d)
  have hsum := rawSum_top rates m aa raws hgood.1 ha0 ha2 hnd
  have hdur : (es.filter fun e => e.date = d ∧ e.mill_id = m).map
      (·.duration_hours) = raws.map fun e => round2 e.act := by
    rw [hmap, List.map_map]
    rfl
  rw [hdur]
  exact hsum

/-- C8.  Within each (date, mill) with a capacity row: the first emitted
entry has changeover 0, and each later entry's changeover is 0.5 exactly
when its recipe differs from the immediately preceding emitted entry's
recipe. -/
theorem C8_changeover_iff (demand : List RecipeDemandRow)
    (caps : List MillCapacityRow) (rates : List MillRecipeRateRow)
    (rc : List (String × ℚ)) (es : List ScheduleEntry) (d : ℕ) (m : String)
    (aa : ℚ)
    (h : generate_mill_recipe_schedule demand caps rates rc = .ok es)
    (hcap : lookupCap caps d m = some aa) :
    (∀ e ∈ (es.filter fun e => e.date = d ∧ e.mill_id = m).head?,
      e.changeover_hours = 0) ∧
    List.Chain' (fun x y : ScheduleEntry =>
        y.changeover_hours = 1 / 2 ↔ y.recipe_id ≠ x.recipe_id)
      (es.filter fun e => e.date = d ∧ e.mill_id = m) := by
  have hu := generate_unit h hcap
  obtain ⟨raws, hL, hmap⟩ := scheduleUnit_raws hu
  have hgood := (loopRaw_good rates m aa (dayRecipes demand d) 0 none raws hL).1
  have hch := rawGood_chainCO rates m aa d rc raws 0 none hgood
  constructor
  · intro e he
    rw [hmap] at he
    have := hch.2 e he
    rw [prevCO_none, round2_zero] at this
    exact this
  · rw [hmap]
    exact hch.1

/-- C9.  Within each (date, mill) with a capacity row, the emitted
entries are listed in nondecreasing `start_hour` order and consecutive
entries are packed back to back:
`end_hour = next.start_hour - next.changeover_hours`, so entries never
overlap (`end_hour ≤ next.start_hour`). -/
theorem C9_packing (demand : List RecipeDemandRow)
    (caps : List MillCapacityRow) (rates : List MillRecipeRateRow)
    (rc : List (String × ℚ)) (es : List ScheduleEntry) (d : ℕ) (m : String)
    (aa : ℚ)
    (h : generate_mill_recipe_schedule demand caps rates rc = .ok es)
    (hcap : lookupCap caps d m = some aa) :
    List.Chain' (fun x y : ScheduleEntry =>
        x.end_hour = y.start_hour - y.changeover_hours ∧
        x.start_hour ≤ y.start_hour ∧ x.end_hour ≤ y.start_hour)
      (es.filter fun e => e.date = d ∧ e.mill_id = m) := by
  have hu := generate_unit h hcap
  obtain ⟨raws, hL, hmap⟩ := scheduleUnit_raws hu
  have hgood := (loopRaw_good rates m aa (dayRecipes demand d) 0 none raws hL).1
  rw [hmap]
  exact rawGood_chainHours rates m aa d rc raws 0 none hgood

/-- C10.  A (date, mill) pair with no capacity row is silently skipped:
the successful run emits no entries for it, and every (date, mill) pair
that does have a capacity row is scheduled exactly as its own
independent unit. -/
theorem C10_missing_capacity_skip (demand : List RecipeDemandRow)
    (caps : List MillCapacityRow) (rates : List MillRecipeRateRow)
    (rc : List (String × ℚ)) (es : List ScheduleEntry) (d : ℕ) (m : String)
    (h : generate_mill_recipe_schedule demand caps rates rc = .ok es)
    (hnone : lookupCap caps d m = none) :
    es.filter (fun e => e.date = d ∧ e.mill_id = m) = [] ∧
    ∀ (d' : ℕ) (m' : String) (aa : ℚ), lookupCap caps d' m' = some aa →
      scheduleUnit rates rc d' m' aa (dayRecipes demand d') =
        .ok (es.filter fun e => e.date = d' ∧ e.mill_id = m') := by
  exact ⟨generate_capNone h hnone, fun d' m' aa hcap => generate_unit h hcap⟩

theorem C2_capacity_bound_witness :
    ((([⟨0, "M1", "R1", 0, 6, 6, 0, 60, 1⟩,
        ⟨0, "M1", "R2", 13 / 2, 10, 7 / 2, 1 / 2, 42, 1⟩] :
          List ScheduleEntry).filter
        fun e => e.date = 0 ∧ e.mill_id = "M1").map
      (·.duration_hours)).sum ≤ 10 + 1 / 1000000 :=
  C2_capacity_bound
    [⟨0, "Superior", "R1", 1, 60⟩, ⟨0, "Superior", "R2", 1, 50⟩]
    [⟨0, "M1", 10⟩]
    [⟨"M1", "R1", 10⟩, ⟨"M1", "R2", 12⟩]
    []
    [⟨0, "M1", "R1", 0, 6, 6, 0, 60, 1⟩,
     ⟨0, "M1", "R2", 13 / 2, 10, 7 / 2, 1 / 2, 42, 1⟩]
    0 "M1" 10
    (by
      intro c hc
      simp only [List.mem_singleton] at hc
      subst hc
      norm_num [round2])
    (by
      simp +decide [generate_mill_recipe_schedule, overDates, unitsForDate,
        scheduleUnit, loopRaw, lookupRate, lookupCap, datesOf, millsOf,
        recipe_daily, groupPairs, dayRecipes, sortValuesDesc, tonsLE, keyLE,
        strLT, charListLT, uniqueFirst, uniqueFirstAux, Except.map,
        List.insertionSort, List.orderedInsert, List.filter_cons, roundEntry,
        round2, prevCO]
      norm_num [roundEntry, round2, ScheduleEntry.mk.injEq])
    (by simp [lookupCap, List.filter_cons])

theorem C8_changeover_iff_witness :
    (∀ e ∈ (([⟨0, "M1", "R1", 0, 6, 6, 0, 60, 1⟩,
        ⟨0, "M1", "R2", 13 / 2, 10, 7 / 2, 1 / 2, 42, 1⟩] :
          List ScheduleEntry).filter
        fun e => e.date = 0 ∧ e.mill_id = "M1").head?,
      e.changeover_hours = 0) ∧
    List.Chain' (fun x y : ScheduleEntry =>
        y.changeover_hours = 1 / 2 ↔ y.recipe_id ≠ x.recipe_id)
      (([⟨0, "M1", "R1", 0, 6, 6, 0, 60, 1⟩,
         ⟨0, "M1", "R2", 13 / 2, 10, 7 / 2, 1 / 2, 42, 1⟩] :
           List ScheduleEntry).filter
        fun e => e.date = 0 ∧ e.mill_id = "M1") :=
  C8_changeover_iff
    [⟨0, "Superior", "R1", 1, 60⟩, ⟨0, "Superior", "R2", 1, 50⟩]
    [⟨0, "M1", 10⟩]
    [⟨"M1", "R1", 10⟩, ⟨"M1", "R2", 12⟩]
    []
    [⟨0, "M1", "R1", 0, 6, 6, 0, 60, 1⟩,
     ⟨0, "M1", "R2", 13 / 2, 10, 7 / 2, 1 / 2, 42, 1⟩]
    0 "M1" 10
    (by
      simp +decide [generate_mill_recipe_schedule, overDates, unitsForDate,
        scheduleUnit, loopRaw, lookupRate, lookupCap, datesOf, millsOf,
        recipe_daily, groupPairs, dayRecipes, sortValuesDesc, tonsLE, keyLE,
        strLT, charListLT, uniqueFirst, uniqueFirstAux, Except.map,
        List.insertionSort, List.orderedInsert, List.filter_cons, roundEntry,
        round2, prevCO]
      norm_num [roundEntry, round2, ScheduleEntry.mk.injEq])
    (by simp [lookupCap, List.filter_cons])

theorem C9_packing_witness :
    List.Chain' (fun x y : ScheduleEntry =>
        x.end_hour = y.start_hour - y.changeover_hours ∧
        x.start_hour ≤ y.start_hour ∧ x.end_hour ≤ y.start_hour)
      (([⟨0, "M1", "R1", 0, 6, 6, 0, 60, 1⟩,
         ⟨0, "M1", "R2", 13 / 2, 10, 7 / 2, 1 / 2, 42, 1⟩] :
           List ScheduleEntry).filter
        fun e => e.date = 0 ∧ e.mill_id = "M1") :=
  C9_packing
    [⟨0, "Superior", "R1", 1, 60⟩, ⟨0, "Superior", "R2", 1, 50⟩]
    [⟨0, "M1", 10⟩]
    [⟨"M1", "R1", 10⟩, ⟨"M1", "R2", 12⟩]
    []
    [⟨0, "M1", "R1", 0, 6, 6, 0, 60, 1⟩,
     ⟨0, "M1", "R2", 13 / 2, 10, 7 / 2, 1 / 2, 42, 1⟩]
    0 "M1" 10
    (by
      simp +decide [generate_mill_recipe_schedule, overDates, unitsForDate,
        scheduleUnit, loopRaw, lookupRate, lookupCap, datesOf, millsOf,
        recipe_daily, groupPairs, dayRecipes, sortValuesDesc, tonsLE, keyLE,
        strLT, charListLT, uniqueFirst, uniqueFirstAux, Except.map,
        List.insertionSort, List.orderedInsert, List.filter_cons, roundEntry,
        round2, prevCO]
      norm_num [roundEntry, round2, ScheduleEntry.mk.injEq])
    (by simp [lookupCap, List.filter_cons])

theorem C10_missing_capacity_skip_witness :
    ([⟨0, "M1", "R1", 0, 6, 6, 0, 60, 1⟩,
      ⟨0, "M1", "R2", 13 / 2, 10, 7 / 2, 1 / 2, 42, 1⟩] :
        List ScheduleEntry).filter
      (fun e => e.date = 0 ∧ e.mill_id = "M2") = [] ∧
    scheduleUnit [⟨"M1", "R1", 10⟩, ⟨"M1", "R2", 12⟩] [] 0 "M1" 10
      (dayRecipes
        [⟨0, "Superior", "R1", 1, 60⟩, ⟨0, "Superior", "R2", 1, 50⟩] 0) =
      .ok (([⟨0, "M1", "R1", 0, 6, 6, 0, 60, 1⟩,
        ⟨0, "M1", "R2", 13 / 2, 10, 7 / 2, 1 / 2, 42, 1⟩] :
          List ScheduleEntry).filter
        fun e => e.date = 0 ∧ e.mill_id = "M1") :=
  ⟨(C10_missing_capacity_skip
      [⟨0, "Superior", "R1", 1, 60⟩, ⟨0, "Superior", "R2", 1, 50⟩]
      [⟨0, "M1", 10⟩]
      [⟨"M1", "R1", 10⟩, ⟨"M1", "R2", 12⟩]
      []
      [⟨0, "M1", "R1", 0, 6, 6, 0, 60, 1⟩,
       ⟨0, "M1", "R2", 13 / 2, 10, 7 / 2, 1 / 2, 42, 1⟩]
      0 "M2"
      (by
        simp +decide [generate_mill_recipe_schedule, overDates, unitsForDate,
          scheduleUnit, loopRaw, lookupRate, lookupCap, datesOf, millsOf,
          recipe_daily, groupPairs, dayRecipes, sortValuesDesc, tonsLE, keyLE,
          strLT, charListLT, uniqueFirst, uniqueFirstAux, Except.map,
          List.insertionSort, List.orderedInsert, List.filter_cons, roundEntry,
          round2, prevCO]
        norm_num [roundEntry, round2, ScheduleEntry.mk.injEq])
      (by simp [lookupCap, List.filter_cons])).1,
   (C10_missing_capacity_skip
      [⟨0, "Superior", "R1", 1, 60⟩, ⟨0, "Superior", "R2", 1, 50⟩]
      [⟨0, "M1", 10⟩]
      [⟨"M1", "R1", 10⟩, ⟨"M1", "R2", 12⟩]
      []
      [⟨0, "M1", "R1", 0, 6, 6, 0, 60, 1⟩,
       ⟨0, "M1", "R2", 13 / 2, 10, 7 / 2, 1 / 2, 42, 1⟩]
      0 "M2"
      (by
        simp +decide [generate_mill_recipe_schedule, overDates, unitsForDate,
          scheduleUnit, loopRaw, lookupRate, lookupCap, datesOf, millsOf,
          recipe_daily, groupPairs, dayRecipes, sortValuesDesc, tonsLE, keyLE,
          strLT, charListLT, uniqueFirst, uniqueFirstAux, Except.map,
          List.insertionSort, List.orderedInsert, List.filter_cons, roundEntry,
          round2, prevCO]
        norm_num [roundEntry, round2, ScheduleEntry.mk.injEq])
      (by simp [lookupCap, List.filter_cons])).2
     0 "M1" 10 (by simp [lookupCap, List.filter_cons])⟩

/-- C1 counterexample.  Demand for R1 (60 t) and R2 (50 t) on one date,
one mill with 10 h capacity, and a rate row only for R1.  The claim says
R2 is skipped with a warning and R1 is scheduled normally; the code
instead hits `rate_row["tons_per_hour"].iloc[0]` on an empty selection —
an uncaught `IndexError` that aborts the whole generation (R1's already
emitted entry is lost too; nothing is logged). -/
theorem C1_counterexample :
    generate_mill_recipe_schedule
      [⟨0, "Superior", "R1", 1, 60⟩, ⟨0, "Superior", "R2", 1, 50⟩]
      [⟨0, "M1", 10⟩]
      [⟨"M1", "R1", 10⟩]
      [] = .error "single positional indexer is out-of-bounds" := by
  simp +decide [generate_mill_recipe_schedule, overDates, unitsForDate,
    scheduleUnit, loopRaw, lookupRate, lookupCap, datesOf, millsOf,
    recipe_daily, groupPairs, dayRecipes, sortValuesDesc, tonsLE, keyLE,
    strLT, charListLT, uniqueFirst, uniqueFirstAux, Except.map,
    List.insertionSort, List.orderedInsert, List.filter_cons, roundEntry,
    round2, prevCO]
  norm_num

/-- C1 amended.  When the per-(date, mill) loop reaches a demanded recipe
whose (mill, recipe) rate lookup is empty, the unit aborts immediately
with the uncaught `IndexError`: the recipe is not skipped, no warning is
emitted, and no further recipe of the unit is processed (the error then
propagates out of `generate_mill_recipe_schedule`, as the counterexample
shows concretely). -/
theorem C1_missing_rate_aborts (rates : List MillRecipeRateRow)
    (m : String) (a : ℚ) (rec : DayRecipe) (rest : List DayRecipe)
    (cur : ℚ) (prev : Option String)
    (h : lookupRate rates m rec.recipe_id = none) :
    loopRaw rates m a (rec :: rest) cur prev =
      .error "single positional indexer is out-of-bounds" := by
  rw [loopRaw, h]

theorem C1_missing_rate_aborts_witness :
    loopRaw [] "M1" 10 [⟨0, "R1", 50⟩] 0 none =
      .error "single positional indexer is out-of-bounds" :=
  C1_missing_rate_aborts [] "M1" 10 ⟨0, "R1", 50⟩ [] 0 none
    (by simp [lookupRate])

/-- Every entry of a successful full schedule arises from an unrounded
actual duration and the looked-up rate of its own (mill, recipe). -/
theorem generate_entry_raw {demand : List RecipeDemandRow}
    {caps : List MillCapacityRow} {rates : List MillRecipeRateRow}
    {rc : List (String × ℚ)} {es : List ScheduleEntry}
    (h : generate_mill_recipe_schedule demand caps rates rc = .ok es) :
    ∀ e ∈ es, ∃ t act : ℚ,
      lookupRate rates e.mill_id e.recipe_id = some t ∧
      e.duration_hours = round2 act ∧ e.tons_produced = round2 (act * t) := by
  intro e he
  have h' := h
  unfold generate_mill_recipe_schedule at h'
  obtain ⟨-, -, aa, hcap⟩ := overDates_mem h' e he
  have hu := generate_unit h hcap
  obtain ⟨raws, hL, hmap⟩ := scheduleUnit_raws hu
  have hef : e ∈ es.filter (fun x => x.date = e.date ∧ x.mill_id = e.mill_id) :=
    List.mem_filter.2 ⟨he, by simp⟩
  rw [hmap] at hef
  obtain ⟨raw, hraw, heq⟩ := List.mem_map.1 hef
  have hgood := (loopRaw_good rates e.mill_id aa
    (dayRecipes demand e.date) 0 none raws hL).1
  obtain ⟨hlook, -⟩ := rawGood_mem rates e.mill_id aa raws 0 none hgood raw hraw
  have hrec : e.recipe_id = raw.recipe_id := by rw [← heq]; rfl
  have hdur : e.duration_hours = round2 raw.act := by rw [← heq]; rfl
  have htons : e.tons_produced = round2 (raw.act * raw.tph) := by
    rw [← heq]; rfl
  exact ⟨raw.tph, raw.act, by rw [hrec]; exact hlook, hdur, htons⟩

theorem round2_mul_bound (x t : ℚ) (ht : 0 ≤ t) :
    |round2 (x * t) - round2 x * t| ≤ (1 + t) / 200 := by
  have h1 := abs_round2_sub_le (x * t)
  have h2 := abs_round2_sub_le x
  have h3 : |round2 (x * t) - round2 x * t| ≤
      |round2 (x * t) - x * t| + |x * t - round2 x * t| := by
    have := abs_sub_le (round2 (x * t)) (x * t) (round2 x * t)
    linarith
  have h4 : |x * t - round2 x * t| = |x - round2 x| * t := by
    rw [← sub_mul, abs_mul, abs_of_nonneg ht]
  have h5 : |x - round2 x| = |round2 x - x| := abs_sub_comm _ _
  have h6 : |x - round2 x| * t ≤ (1 / 200) * t := by
    apply mul_le_mul_of_nonneg_right _ ht
    rw [h5]
    exact h2
  rw [h4] at h3
  nlinarith

/-- C3 counterexample (the spec's own Scenario B numbers).  One recipe of
50 t at 10.5 t/h on a 20 h mill: the emitted entry has
`duration_hours = 4.76` (rounded from 50/10.5) and `tons_produced = 50`,
but `duration_hours × tons_per_hour = 4.76 × 10.5 = 49.98`, off by
0.02 > 0.01. -/
theorem C3_counterexample :
    generate_mill_recipe_schedule
      [⟨0, "Superior", "R1", 1, 50⟩]
      [⟨0, "M1", 20⟩]
      [⟨"M1", "R1", 21 / 2⟩]
      [] = .ok [⟨0, "M1", "R1", 0, 119 / 25, 119 / 25, 0, 50, 1⟩] ∧
    lookupRate [⟨"M1", "R1", 21 / 2⟩] "M1" "R1" = some (21 / 2) ∧
    |(50 : ℚ) - (119 / 25) * (21 / 2)| > 1 / 100 := by
  refine ⟨?_, by simp [lookupRate, List.filter_cons], ?_⟩
  swap
  · have hv : (50 : ℚ) - 119 / 25 * (21 / 2) = 1 / 50 := by norm_num
    rw [hv, abs_of_pos (by norm_num : (0 : ℚ) < 1 / 50)]
    norm_num
  simp +decide [generate_mill_recipe_schedule, overDates, unitsForDate,
    scheduleUnit, loopRaw, lookupRate, lookupCap, datesOf, millsOf,
    recipe_daily, groupPairs, dayRecipes, sortValuesDesc, tonsLE, keyLE,
    strLT, charListLT, uniqueFirst, uniqueFirstAux, Except.map,
    List.insertionSort, List.orderedInsert, List.filter_cons, roundEntry,
    round2, prevCO]
  norm_num [roundEntry, round2, ScheduleEntry.mk.injEq]

/-- C3 amended.  `tons_produced` is the rounded product of the unrounded
duration with the rate, so against the stored (rounded) `duration_hours`
the product identity holds only within `(1 + tons_per_hour)/200` tons
(for the repo's rates of ≈ 8–13 t/h this is ≈ 0.05–0.07, not 0.01). -/
theorem C3_tons_bound (demand : List RecipeDemandRow)
    (caps : List MillCapacityRow) (rates : List MillRecipeRateRow)
    (rc : List (String × ℚ)) (es : List ScheduleEntry)
    (e : ScheduleEntry) (t : ℚ)
    (h : generate_mill_recipe_schedule demand caps rates rc = .ok es)
    (he : e ∈ es)
    (ht : lookupRate rates e.mill_id e.recipe_id = some t)
    (htn : 0 ≤ t) :
    |e.tons_produced - e.duration_hours * t| ≤ (1 + t) / 200 := by
  obtain ⟨t', act, hlook, hdur, htons⟩ := generate_entry_raw h e he
  rw [ht] at hlook
  injection hlook with ht'
  subst ht'
  rw [hdur, htons]
  exact round2_mul_bound act t htn

theorem C3_tons_bound_witness :
    |(50 : ℚ) - (119 / 25) * (21 / 2)| ≤ (1 + 21 / 2) / 200 :=
  C3_tons_bound
    [⟨0, "Superior", "R1", 1, 50⟩]
    [⟨0, "M1", 20⟩]
    [⟨"M1", "R1", 21 / 2⟩]
    []
    [⟨0, "M1", "R1", 0, 119 / 25, 119 / 25, 0, 50, 1⟩]
    ⟨0, "M1", "R1", 0, 119 / 25, 119 / 25, 0, 50, 1⟩
    (21 / 2)
    (by
      simp +decide [generate_mill_recipe_schedule, overDates, unitsForDate,
        scheduleUnit, loopRaw, lookupRate, lookupCap, datesOf, millsOf,
        recipe_daily, groupPairs, dayRecipes, sortValuesDesc, tonsLE, keyLE,
        strLT, charListLT, uniqueFirst, uniqueFirstAux, Except.map,
        List.insertionSort, List.orderedInsert, List.filter_cons, roundEntry,
        round2, prevCO]
      norm_num [roundEntry, round2, ScheduleEntry.mk.injEq])
    (by simp)
    (by simp [lookupRate, List.filter_cons])
    (by norm_num)

theorem uniqueFirstAux_subset {α : Type} [DecidableEq α] :
    ∀ (l seen : List α) (x : α), x ∈ uniqueFirstAux seen l → x ∈ l
  | [], _, x, hx => by simp [uniqueFirstAux] at hx
  | y :: ys, seen, x, hx => by
    by_cases hy : y ∈ seen
    · simp only [uniqueFirstAux, if_pos hy] at hx
      exact List.mem_cons_of_mem _ (uniqueFirstAux_subset ys seen x hx)
    · simp only [uniqueFirstAux, if_neg hy, List.mem_cons] at hx
      rcases hx with rfl | hx'
      · exact List.mem_cons_self _ _
      · exact List.mem_cons_of_mem _ (uniqueFirstAux_subset ys (y :: seen) x hx')

theorem uniqueFirst_subset {α : Type} [DecidableEq α] {l : List α} {x : α}
    (hx : x ∈ uniqueFirst l) : x ∈ l :=
  uniqueFirstAux_subset l [] x hx

/-- C4 counterexample.  One date with demand (R1, 100 t), one mill with
`available_hours = 0` and a valid rate row: the scheduler emits zero
entries (as the claim says), but `generate_mill_load` then produces **no
row at all** for that (date, mill) — its groupby runs over the schedule,
so the claimed undefined-utilization sentinel row does not exist. -/
theorem C4_counterexample :
    generate_mill_recipe_schedule
      [⟨0, "Superior", "R1", 1, 100⟩]
      [⟨0, "M1", 0⟩]
      [⟨"M1", "R1", 10⟩]
      [] = .ok [] ∧
    generate_mill_load [] [⟨0, "M1", 0⟩] = [] ∧
    ¬∃ r ∈ generate_mill_load [] [⟨0, "M1", 0⟩],
      r.date = 0 ∧ r.mill_id = "M1" := by
  refine ⟨?_, ?_, ?_⟩
  · simp +decide [generate_mill_recipe_schedule, overDates, unitsForDate,
      scheduleUnit, loopRaw, lookupRate, lookupCap, datesOf, millsOf,
      recipe_daily, groupPairs, dayRecipes, sortValuesDesc, tonsLE, keyLE,
      strLT, charListLT, uniqueFirst, uniqueFirstAux, Except.map,
      List.insertionSort, List.orderedInsert, List.filter_cons, roundEntry,
      round2, prevCO]
  · simp [generate_mill_load, dailyLoadKeys, uniqueFirst, uniqueFirstAux,
      List.insertionSort]
  · simp [generate_mill_load, dailyLoadKeys, uniqueFirst, uniqueFirstAux,
      List.insertionSort]

/-- C4 amended.  A (date, mill) with `available_hours = 0` gets zero
schedule entries, and `generate_mill_load` produces rows only for
(date, mill) keys that have at least one schedule entry — so a
zero-capacity (date, mill) has no load row at all (no sentinel, no zero
utilization). -/
theorem C4_zero_capacity (demand : List RecipeDemandRow)
    (caps capsL : List MillCapacityRow) (rates : List MillRecipeRateRow)
    (rc : List (String × ℚ)) (es sched : List ScheduleEntry) (d : ℕ)
    (m : String) (r : MillLoadRow) :
    (generate_mill_recipe_schedule demand caps rates rc = .ok es →
      lookupCap caps d m = some 0 →
      es.filter (fun e => e.date = d ∧ e.mill_id = m) = []) ∧
    (r ∈ generate_mill_load sched capsL →
      ∃ e ∈ sched, e.date = r.date ∧ e.mill_id = r.mill_id) := by
  constructor
  · intro h hcap
    have hu := generate_unit h hcap
    obtain ⟨raws, hL, hmap⟩ := scheduleUnit_raws hu
    have hgood := (loopRaw_good rates m 0 (dayRecipes demand d) 0 none
      raws hL).1
    cases raws with
    | nil => rw [hmap]; rfl
    | cons e rest =>
      obtain ⟨-, hact, hco, hle, -, -⟩ := hgood
      have hconn : 0 ≤ e.co := hco ▸ prevCO_nonneg _ _
      linarith
  · intro hr
    obtain ⟨k, hk, hrk⟩ := List.mem_flatMap.1 hr
    have hkmem : k ∈ sched.map fun e => (e.date, e.mill_id) :=
      uniqueFirst_subset
        ((List.perm_insertionSort keyLE _).mem_iff.1 hk)
    obtain ⟨e, he, hek⟩ := List.mem_map.1 hkmem
    have hrdate : r.date = k.1 ∧ r.mill_id = k.2 := by
      rcases hmatch : capsL.filter
          (fun c => c.date = k.1 ∧ c.mill_id = k.2) with - | ⟨c, cs⟩
      · rw [hmatch] at hrk
        simp only [List.mem_singleton] at hrk
        subst hrk
        exact ⟨rfl, rfl⟩
      · rw [hmatch] at hrk
        obtain ⟨c', -, hc'⟩ := List.mem_map.1 hrk
        subst hc'
        exact ⟨rfl, rfl⟩
    refine ⟨e, he, ?_, ?_⟩
    · rw [hrdate.1, ← hek]
    · rw [hrdate.2, ← hek]

theorem C4_zero_capacity_witness :
    (generate_mill_recipe_schedule
        [⟨0, "Superior", "R1", 1, 100⟩] [⟨0, "M1", 0⟩] [⟨"M1", "R1", 10⟩]
        [] = .ok [] →
      lookupCap [⟨0, "M1", 0⟩] 0 "M1" = some 0 →
      (([] : List ScheduleEntry).filter
        (fun e => e.date = 0 ∧ e.mill_id = "M1")) = []) ∧
    ((⟨0, "M1", 6, some 0, some 6, 999⟩ : MillLoadRow) ∈
        generate_mill_load [⟨0, "M1", "R1", 0, 6, 6, 0, 60, 1⟩]
          [⟨0, "M1", 0⟩] →
      ∃ e ∈ [(⟨0, "M1", "R1", 0, 6, 6, 0, 60, 1⟩ : ScheduleEntry)],
        e.date = (⟨0, "M1", 6, some 0, some 6, 999⟩ : MillLoadRow).date ∧
        e.mill_id = (⟨0, "M1", 6, some 0, some 6, 999⟩ : MillLoadRow).mill_id) :=
  C4_zero_capacity
    [⟨0, "Superior", "R1", 1, 100⟩] [⟨0, "M1", 0⟩] [⟨0, "M1", 0⟩]
    [⟨"M1", "R1", 10⟩] [] [] [⟨0, "M1", "R1", 0, 6, 6, 0, 60, 1⟩]
    0 "M1" ⟨0, "M1", 6, some 0, some 6, 999⟩

/-- C5 counterexample.  Bulk demand of 100 t Superior and 50 t Brown on
one date, with mix rows only for Brown: the inner merge keeps only the
Brown row and the Superior demand vanishes from the output.
`generate_recipe_demand` is a pure dataframe computation with no logging
call, so no warning of any kind accompanies the loss. -/
theorem C5_counterexample :
    generate_recipe_demand
      [⟨0, "Superior", 100⟩, ⟨0, "Brown", 50⟩]
      [⟨0, "Brown", "R3", 1⟩] = [⟨0, "Brown", "R3", 1, 50⟩] ∧
    ∀ r ∈ generate_recipe_demand
        [⟨0, "Superior", 100⟩, ⟨0, "Brown", 50⟩]
        [⟨0, "Brown", "R3", 1⟩], r.flour_type ≠ "Superior" := by
  constructor
  · simp +decide [generate_recipe_demand, List.filter_cons]
  · intro r hr
    simp +decide [generate_recipe_demand, List.filter_cons] at hr
    rw [hr]
    simp

/-- C5 amended.  A bulk-demand row whose (date, flour_type) matches no
recipe-mix row is silently dropped: the inner merge emits no output row
for that key, and the function has no warning channel at all — the
demand is lost without being surfaced. -/
theorem C5_silent_drop (bulk : List BulkFlourRow) (mix : List RecipeMixRow)
    (b : BulkFlourRow) (_hb : b ∈ bulk)
    (hmiss : ∀ mx ∈ mix, ¬(mx.date = b.date ∧ mx.flour_type = b.flour_type)) :
    ∀ r ∈ generate_recipe_demand bulk mix,
      ¬(r.date = b.date ∧ r.flour_type = b.flour_type) := by
  intro r hr hcontra
  obtain ⟨b', hb', hrb⟩ := List.mem_flatMap.1 hr
  obtain ⟨mx, hmx, heq⟩ := List.mem_map.1 hrb
  obtain ⟨hmxmem, hmxpred⟩ := List.mem_filter.1 hmx
  simp only [decide_eq_true_eq] at hmxpred
  have hrdate : r.date = b'.date := by rw [← heq]
  have hrft : r.flour_type = b'.flour_type := by rw [← heq]
  apply hmiss mx hmxmem
  constructor
  · rw [hmxpred.1, ← hrdate, hcontra.1]
  · rw [hmxpred.2, ← hrft, hcontra.2]

theorem C5_silent_drop_witness :
    ∀ r ∈ generate_recipe_demand
        [⟨0, "Superior", 100⟩, ⟨0, "Brown", 50⟩]
        [⟨0, "Brown", "R3", 1⟩],
      ¬(r.date = (⟨0, "Superior", 100⟩ : BulkFlourRow).date ∧
        r.flour_type = (⟨0, "Superior", 100⟩ : BulkFlourRow).flour_type) :=
  C5_silent_drop
    [⟨0, "Superior", 100⟩, ⟨0, "Brown", 50⟩]
    [⟨0, "Brown", "R3", 1⟩]
    ⟨0, "Superior", 100⟩
    (by simp)
    (by
      intro mx hmx
      simp only [List.mem_singleton] at hmx
      subst hmx
      simp)

/-- C7 counterexample.  Two recipes with equal aggregated demand (50 t).
The aggregation (`recipe_daily`) produces R1 before R2, but the day's
sorted list (`sort_values(..., ascending=False)`, i.e. the reverse of a
stable ascending argsort) consumes R2 before R1 — ties come out in
reversed aggregation order, not input order. -/
theorem C7_counterexample :
    recipe_daily [⟨0, "Superior", "R1", 1, 50⟩, ⟨0, "Bakery", "R2", 1, 50⟩]
      = [⟨0, "R1", 50⟩, ⟨0, "R2", 50⟩] ∧
    dayRecipes [⟨0, "Superior", "R1", 1, 50⟩, ⟨0, "Bakery", "R2", 1, 50⟩] 0
      = [⟨0, "R2", 50⟩, ⟨0, "R1", 50⟩] := by
  constructor <;>
  · simp +decide only [recipe_daily, groupPairs, dayRecipes, sortValuesDesc,
      tonsLE, keyLE, strLT, charListLT, uniqueFirst, uniqueFirstAux,
      List.insertionSort, List.orderedInsert, List.filter_cons,
      List.filter_nil, List.map, List.sum_cons, List.sum_nil, List.reverse,
      List.reverseAux, List.mem_cons, List.mem_singleton, List.not_mem_nil]
    norm_num

theorem insertionSort_id_of_all_le :
    ∀ (l : List DayRecipe), (∀ a ∈ l, ∀ b ∈ l, tonsLE a b) →
      List.insertionSort tonsLE l = l
  | [] => by simp
  | x :: xs => by
    intro h
    have ih := insertionSort_id_of_all_le xs fun a ha b hb =>
      h a (List.mem_cons_of_mem _ ha) b (List.mem_cons_of_mem _ hb)
    simp only [List.insertionSort]
    rw [ih]
    cases xs with
    | nil => rfl
    | cons y ys =>
      simp only [List.orderedInsert]
      rw [if_pos (h x (List.mem_cons_self _ _) y
        (List.mem_cons_of_mem _ (List.mem_cons_self _ _)))]

/-- C7 amended.  The day's list is sorted by `recipe_required_tons`
descending, but rows with equal `required_tons` appear in **reversed**
aggregation order: pandas `sort_values(ascending=False)` reverses a
stable ascending argsort, so on an all-tied list the output is exactly
the reverse of the aggregated input. -/
theorem C7_desc_ties_reversed (l : List DayRecipe) :
    List.Sorted (fun a b : DayRecipe =>
      b.recipe_required_tons ≤ a.recipe_required_tons) (sortValuesDesc l) ∧
    ((∀ a ∈ l, ∀ b ∈ l,
        a.recipe_required_tons = b.recipe_required_tons) →
      sortValuesDesc l = l.reverse) := by
  constructor
  · unfold sortValuesDesc
    rw [List.Sorted, List.pairwise_reverse]
    exact List.sorted_insertionSort tonsLE l
  · intro hall
    unfold sortValuesDesc
    rw [insertionSort_id_of_all_le l fun a ha b hb => by
      unfold tonsLE
      rw [hall a ha b hb]]

theorem C7_desc_ties_reversed_witness :
    sortValuesDesc [⟨0, "R1", 50⟩, ⟨0, "R2", 50⟩] =
      ([⟨0, "R1", 50⟩, ⟨0, "R2", 50⟩] : List DayRecipe).reverse :=
  (C7_desc_ties_reversed [⟨0, "R1", 50⟩, ⟨0, "R2", 50⟩]).2
    (by
      intro a ha b hb
      simp only [List.mem_cons, List.not_mem_nil, or_false] at ha hb
      rcases ha with rfl | rfl <;> rcases hb with rfl | rfl <;> rfl)

end MC4
